import Mathlib

/-!
Verification of the callout-range detection and markdown-reconstruction core
of the obsidian-callout-copy-buttons plugin.

The embedded functions are translated from:
* `computeCalloutRanges` (viewPlugin state-field module),
* `findCalloutRangeContainingLine` and its caller (`DOMObserver.ts`),
* `getCalloutMarkdownFromLines` (`utils/getMarkdownFromLines`).

A document is modelled as its list of lines (each line a list of characters);
`doc.lines` of CodeMirror becomes `Doc.lineCount`, `doc.line(n).text` becomes
`Doc.lineText n`.  The shared regular expression
`/^((?:> )+)\[!.+\]/` is modelled character by character by
`execCalloutHeaderIndent`.
-/

/-- A document: an ordered sequence of 1-indexed lines (CodeMirror `Text`).
Each line is the list of its characters; a real editor line never contains a
newline character. -/
structure Doc where
  lineList : List (List Char)
deriving DecidableEq

/-- CodeMirror `doc.lines`: the number of lines of the document. -/
def Doc.lineCount (d : Doc) : Nat := d.lineList.length

/-- CodeMirror `doc.line(n).text`: the text of the 1-indexed line `n`.
Out-of-range access (which would throw in CodeMirror, and which the embedded
functions never perform on the inputs the theorems speak about) yields `[]`. -/
def Doc.lineText (d : Doc) (n : Nat) : List Char := d.lineList.getD (n - 1) []

/-- `{ lineStart, lineEnd }` of the source (`CalloutLineRange` interface). -/
structure CalloutLineRange where
  lineStart : Nat
  lineEnd : Nat
deriving DecidableEq

/-- A character matched by `.` in a JavaScript regex: any character that is
not a line terminator. -/
def isRegexDot (c : Char) : Bool :=
  !(c = '\n' || c = '\r' || c = '\u2028' || c = '\u2029')

/-- Matches `.*\]` against a prefix of the list (the regex is unanchored at
the end, so characters after the `]` are ignored): some position holds `]`
and every character before it is matched by `.`. -/
def dotStarRBracket : List Char → Bool
  | [] => false
  | c :: rest => if c = ']' then true else if isRegexDot c then dotStarRBracket rest else false

/-- Matches `.+\]` against a prefix of the list: at least one `.`-matched
character, then somewhere a literal `]`. -/
def dotPlusRBracket : List Char → Bool
  | [] => false
  | c :: rest => isRegexDot c && dotStarRBracket rest

/-- Matches `\[!.+\]` at the start of the list. -/
def matchBracketBang : List Char → Bool
  | '[' :: '!' :: rest => dotPlusRBracket rest
  | _ => false

/-- `CALLOUT_HEADER_REGEX.exec(line)?.[1]` for the shared pattern
`/^((?:> )+)\[!.+\]/`: the captured indent (the maximal leading run of
`"> "` pairs) when the line matches, `none` otherwise.  The greedy group can
only backtrack onto positions whose next two characters are `"> "`, which can
never begin `\[!`, so the capture is exactly the maximal run. -/
def execCalloutHeaderIndent : List Char → Option (List Char)
  | '>' :: ' ' :: rest =>
      match execCalloutHeaderIndent rest with
      | some ind => some ('>' :: ' ' :: ind)
      | none => if matchBracketBang rest then some ('>' :: ' ' :: []) else none
  | _ => none

/-- The downward scan shared by `computeCalloutRanges` and
`findCalloutRangeContainingLine`:
`for (let i = i0; i <= doc.lines; i++) { if (!doc.line(i).text.startsWith(indent)) break; lineEnd = i; }`,
unrolled on the exact number `fuel` of remaining loop iterations
(`doc.lines + 1 - i0` at entry, so the `i <= doc.lines` loop bound is the
`fuel = 0` case). -/
def scanDownAux (d : Doc) (indent : List Char) : Nat → Nat → Nat → Nat
  | 0, _, lineEnd => lineEnd
  | fuel + 1, i, lineEnd =>
      if indent.isPrefixOf (d.lineText i) then scanDownAux d indent fuel (i + 1) i
      else lineEnd

/-- The downward scan with its `lineEnd` accumulator and starting index,
as in the source (`let lineEnd = j; for (let i = j + 1; ...)` is
`scanDown d indent j (j+1)`). -/
def scanDown (d : Doc) (indent : List Char) (lineEnd i : Nat) : Nat :=
  scanDownAux d indent (d.lineCount + 1 - i) i lineEnd

/-- The `CalloutLineRange` that `computeCalloutRanges` builds for a header
line `n` whose captured indent is `indent` (spec Operation A,
`rangeFromHeaderLine`). -/
def rangeFromHeaderLine (d : Doc) (n : Nat) (indent : List Char) : CalloutLineRange :=
  ⟨n, scanDown d indent n (n + 1)⟩

/-- The document-wide forward scan `computeCalloutRanges` of the state-field
module: one iteration per line from `line = 1` to `doc.lines` (`fuel` counts
the remaining iterations); a line whose text matches the header pattern
contributes the range of its downward scan. -/
def computeCalloutRangesAux (d : Doc) : Nat → Nat → List CalloutLineRange
  | 0, _ => []
  | fuel + 1, line =>
      match execCalloutHeaderIndent (d.lineText line) with
      | none => computeCalloutRangesAux d fuel (line + 1)
      | some indent =>
          rangeFromHeaderLine d line indent :: computeCalloutRangesAux d fuel (line + 1)

def computeCalloutRanges (d : Doc) : List CalloutLineRange :=
  computeCalloutRangesAux d d.lineCount 1

/-- Whitespace as stripped by JavaScript `String.prototype.trim`.  The ASCII
whitespace characters plus NBSP and the BOM are listed; the exotic Unicode
space separators are omitted — they play the same role as the listed ones, and
no embedded function distinguishes among whitespace characters. -/
def isJSWhitespace (c : Char) : Bool :=
  c = ' ' || c = '\t' || c = '\n' || c = '\r' || c = '\x0b' || c = '\x0c' ||
    c = '\u00A0' || c = '\uFEFF'

/-- `text.trim().startsWith(">")` of the upward scan.  `trim` also strips
trailing whitespace, but `startsWith` only inspects the front, so only the
leading strip matters: the first non-whitespace character must be `>`. -/
def trimmedStartsWithGt (text : List Char) : Bool :=
  match text.dropWhile isJSWhitespace with
  | '>' :: _ => true
  | _ => false

/-- The upward scan of `findCalloutRangeContainingLine` (`DOMObserver.ts`):
`for (let i = targetLine; i >= 1; i--)` — test the header regex first; on a
match return the line and its captured indent; otherwise abort unless the
line still looks like a blockquote continuation.  Falling past line 1 leaves
`lineStart = -1`, i.e. `none`. -/
def scanUp (d : Doc) : Nat → Option (Nat × List Char)
  | 0 => none
  | i + 1 =>
      match execCalloutHeaderIndent (d.lineText (i + 1)) with
      | some indent => some (i + 1, indent)
      | none =>
          if trimmedStartsWithGt (d.lineText (i + 1)) then scanUp d i else none

/-- `findCalloutRangeContainingLine(doc, targetLine)` of `DOMObserver.ts`:
the upward scan finds the header and its indent, then the downward scan
(initial `lineEnd = targetLine`, starting at `targetLine + 1`) extends the
end. -/
def findCalloutRangeContainingLine (d : Doc) (targetLine : Nat) : Option CalloutLineRange :=
  match scanUp d targetLine with
  | none => none
  | some (lineStart, indent) =>
      some ⟨lineStart, scanDown d indent targetLine (targetLine + 1)⟩

/-- The body-collection loop of `getCalloutMarkdownFromLines`:
`for (let i = lineStart + 1; i <= lineEnd; i++)` — push `line.slice(indent.length)`
while the line starts with the indent, break at the first line that does not.
`fuel` is the exact iteration count `lineEnd - lineStart` at entry. -/
def collectBodyAux (d : Doc) (indent : List Char) : Nat → Nat → List (List Char)
  | 0, _ => []
  | fuel + 1, i =>
      if indent.isPrefixOf (d.lineText i) then
        (d.lineText i).drop indent.length :: collectBodyAux d indent fuel (i + 1)
      else []

/-- `bodyLines.join("\n")` of JavaScript arrays. -/
def joinLines : List (List Char) → List Char
  | [] => []
  | [l] => l
  | l :: l₂ :: ls => l ++ '\n' :: joinLines (l₂ :: ls)

/-- `getCalloutMarkdownFromLines(doc, lineStart, lineEnd)` of
`utils/getMarkdownFromLines`.  The line numbers are kept as integers so that
the leading bounds guard is stated over exactly the inputs the source
accepts. -/
def getCalloutMarkdownFromLines (d : Doc) (lineStart lineEnd : Int) : Option (List Char) :=
  if lineStart < 1 ∨ lineEnd > (d.lineCount : Int) ∨ lineStart > lineEnd then
    none
  else
    match execCalloutHeaderIndent (d.lineText lineStart.toNat) with
    | none => none
    | some indent =>
        some (joinLines
          (collectBodyAux d indent (lineEnd.toNat - lineStart.toNat) (lineStart.toNat + 1)))

/-- Splitting a string on the newline character, with JavaScript
`"...".split("\n")` semantics: the empty string yields one empty piece. -/
def splitOnNewlineChar : List Char → List (List Char)
  | [] => [[]]
  | c :: rest =>
      if c = '\n' then [] :: splitOnNewlineChar rest
      else
        match splitOnNewlineChar rest with
        | [] => [[c]]
        | l :: ls => (c :: l) :: ls

/-- Lines `a .. b` (1-indexed, inclusive) of a document, as a list. -/
def lineSlice (d : Doc) (a b : Nat) : List (List Char) :=
  (List.range (b + 1 - a)).map (fun k => d.lineText (a + k))

/-- The nested-callout example document of the specification. -/
def docNested : Doc :=
  ⟨[("> [!note]").data, ("> body1").data, ("> > [!warning]").data,
    ("> > inner body").data, ("> body2").data]⟩

/-- The one-line header-only example document of the specification. -/
def docNote : Doc := ⟨[("> [!note]").data]⟩

/-- The no-match example document of the specification. -/
def docPlain : Doc := ⟨[("plain text").data, ("more text").data]⟩

/-- A document whose line 3 belongs to the outer callout but not to the inner
one, while the inner header is the nearest header above line 3. -/
def docMixed : Doc := ⟨[("> [!a]").data, ("> > [!b]").data, ("> x").data]⟩

/-- The `"> "` indent as a character list. -/
def indentOne : List Char := ('>' :: ' ' :: [])

/-- The `"> > "` indent as a character list. -/
def indentTwo : List Char := ('>' :: ' ' :: '>' :: ' ' :: [])

/-- The upward walk from probe line `p` stops at a line `j` without having
found a header: `j` does not match the header pattern, fails the
blockquote-continuation test, and every line strictly between `j` and `p` is a
non-header that passes the test. -/
def walkBlockedAt (d : Doc) (p j : Nat) : Prop :=
  1 ≤ j ∧ j ≤ p ∧ execCalloutHeaderIndent (d.lineText j) = none ∧
    trimmedStartsWithGt (d.lineText j) = false ∧
    ∀ q, j < q → q ≤ p → execCalloutHeaderIndent (d.lineText q) = none ∧
      trimmedStartsWithGt (d.lineText q) = true

/-- The upward walk from probe line `p` reaches past line 1 without having
found a header. -/
def walkExhausted (d : Doc) (p : Nat) : Prop :=
  ∀ q, 1 ≤ q → q ≤ p → execCalloutHeaderIndent (d.lineText q) = none ∧
    trimmedStartsWithGt (d.lineText q) = true

/-! ### Properties of the downward scan -/

theorem scanDownAux_spec (d : Doc) (indent : List Char) :
    ∀ fuel j, fuel + j = d.lineCount →
      j ≤ scanDownAux d indent fuel (j + 1) j ∧
      scanDownAux d indent fuel (j + 1) j ≤ d.lineCount ∧
      (∀ m, j < m → m ≤ scanDownAux d indent fuel (j + 1) j →
        indent.isPrefixOf (d.lineText m) = true) ∧
      (scanDownAux d indent fuel (j + 1) j < d.lineCount →
        indent.isPrefixOf (d.lineText (scanDownAux d indent fuel (j + 1) j + 1)) = false) ∧
      (j < d.lineCount → indent.isPrefixOf (d.lineText (j + 1)) = true →
        j < scanDownAux d indent fuel (j + 1) j) := by
  intro fuel
  induction fuel with
  | zero =>
      intro j hj
      simp only [scanDownAux]
      refine ⟨le_refl j, by omega, ?_, by omega, by omega⟩
      intro m h1 h2
      omega
  | succ fuel ih =>
      intro j hj
      cases hpf : indent.isPrefixOf (d.lineText (j + 1)) with
      | false =>
          simp only [scanDownAux, hpf, Bool.false_eq_true, if_false]
          refine ⟨le_refl j, by omega, ?_, ?_, ?_⟩
          · intro m h1 h2; omega
          · intro _; trivial
          · intro _ h; exact h.elim
      | true =>
          have hrec := ih (j + 1) (by omega)
          simp only [scanDownAux, hpf, if_true]
          obtain ⟨h1, h2, h3, h4, h5⟩ := hrec
          refine ⟨by omega, h2, ?_, h4, ?_⟩
          · intro m hm1 hm2
            rcases Nat.lt_or_ge j (m - 1) with hc | hc
            · exact h3 m (by omega) hm2
            · have : m = j + 1 := by omega
              rw [this]; exact hpf
          · intro _ _; omega

theorem scanDown_spec (d : Doc) (indent : List Char) (j : Nat) (hj : j ≤ d.lineCount) :
    j ≤ scanDown d indent j (j + 1) ∧
    scanDown d indent j (j + 1) ≤ d.lineCount ∧
    (∀ m, j < m → m ≤ scanDown d indent j (j + 1) →
      indent.isPrefixOf (d.lineText m) = true) ∧
    (scanDown d indent j (j + 1) < d.lineCount →
      indent.isPrefixOf (d.lineText (scanDown d indent j (j + 1) + 1)) = false) ∧
    (j < d.lineCount → indent.isPrefixOf (d.lineText (j + 1)) = true →
      j < scanDown d indent j (j + 1)) := by
  have h := scanDownAux_spec d indent (d.lineCount - j) j (by omega)
  have heq : d.lineCount + 1 - (j + 1) = d.lineCount - j := by omega
  rw [scanDown, heq]
  exact h

/-- Restarting the downward scan anywhere inside an already-computed range
yields the same end line. -/
theorem scanDown_stable (d : Doc) (indent : List Char) (s : Nat)
    (hs : s ≤ d.lineCount) :
    ∀ n p, p ≤ scanDown d indent s (s + 1) → s ≤ p →
      scanDown d indent s (s + 1) = p + n →
      scanDown d indent p (p + 1) = scanDown d indent s (s + 1) := by
  obtain ⟨h1, h2, h3, h4, h5⟩ := scanDown_spec d indent s hs
  intro n
  induction n with
  | zero =>
      intro p hp1 hp2 hp3
      have hpE : p = scanDown d indent s (s + 1) := by omega
      obtain ⟨g1, g2, g3, g4, g5⟩ := scanDown_spec d indent p (by omega)
      rcases Nat.eq_or_lt_of_le g1 with he | hlt
      · omega
      · exfalso
        have hple : p + 1 ≤ scanDown d indent p (p + 1) := hlt
        have hpc : p < d.lineCount := by
          have := g2
          omega
        have hfail : indent.isPrefixOf (d.lineText (p + 1)) = false := by
          rw [hpE]; exact h4 (by omega)
        have hok : indent.isPrefixOf (d.lineText (p + 1)) = true :=
          g3 (p + 1) (by omega) hple
        rw [hok] at hfail
        exact absurd hfail (by simp)
  | succ n ihn =>
      intro p hp1 hp2 hp3
      have hplt : p < scanDown d indent s (s + 1) := by omega
      have hpc : p < d.lineCount := by have := h2; omega
      have hok : indent.isPrefixOf (d.lineText (p + 1)) = true :=
        h3 (p + 1) (by omega) (by omega)
      have hrw : scanDown d indent p (p + 1) = scanDown d indent (p + 1) (p + 2) := by
        rw [scanDown, scanDown]
        have hf : d.lineCount + 1 - (p + 1) = (d.lineCount + 1 - (p + 2)) + 1 := by omega
        rw [hf]
        simp only [scanDownAux, hok, if_true]
      rw [hrw]
      exact ihn (p + 1) (by omega) (by omega) (by omega)

/-! ### Properties of the header pattern and the upward scan -/

theorem execCalloutHeaderIndent_shape (l I : List Char)
    (h : execCalloutHeaderIndent l = some I) : ∃ I', I = '>' :: ' ' :: I' := by
  unfold execCalloutHeaderIndent at h
  split at h
  · split at h
    · exact ⟨_, (Option.some.inj h).symm⟩
    · split at h
      · exact ⟨[], (Option.some.inj h).symm⟩
      · exact absurd h (by simp)
  · exact absurd h (by simp)

theorem trimmedStartsWithGt_of_indent (I t : List Char)
    (hsh : ∃ I', I = '>' :: ' ' :: I') (hpf : I.isPrefixOf t = true) :
    trimmedStartsWithGt t = true := by
  obtain ⟨I', rfl⟩ := hsh
  cases t with
  | nil => simp [List.isPrefixOf] at hpf
  | cons b bs =>
      simp only [List.isPrefixOf, Bool.and_eq_true, beq_iff_eq] at hpf
      obtain ⟨rfl, -⟩ := hpf
      simp [trimmedStartsWithGt, List.dropWhile, isJSWhitespace]

theorem scanUp_some (d : Doc) :
    ∀ p s I, scanUp d p = some (s, I) →
      1 ≤ s ∧ s ≤ p ∧ execCalloutHeaderIndent (d.lineText s) = some I := by
  intro p
  induction p with
  | zero => intro s I h; simp [scanUp] at h
  | succ p ih =>
      intro s I h
      rw [scanUp] at h
      cases hexec : execCalloutHeaderIndent (d.lineText (p + 1)) with
      | some ind =>
          rw [hexec] at h
          obtain ⟨rfl, rfl⟩ : p + 1 = s ∧ ind = I := by
            have := Option.some.inj h
            exact ⟨congrArg Prod.fst this, congrArg Prod.snd this⟩
          exact ⟨by omega, le_refl _, hexec⟩
      | none =>
          rw [hexec] at h
          by_cases hbq : trimmedStartsWithGt (d.lineText (p + 1)) = true
          · rw [if_pos hbq] at h
            obtain ⟨g1, g2, g3⟩ := ih s I h
            exact ⟨g1, by omega, g3⟩
          · rw [if_neg hbq] at h
            exact absurd h (by simp)

/-- The upward scan walks unchanged through non-header blockquote lines. -/
theorem scanUp_skip (d : Doc) (s : Nat) :
    ∀ p, s ≤ p →
      (∀ q, s < q → q ≤ p → execCalloutHeaderIndent (d.lineText q) = none ∧
        trimmedStartsWithGt (d.lineText q) = true) →
      scanUp d p = scanUp d s := by
  intro p
  induction p with
  | zero => intro hs _; have : s = 0 := by omega
            rw [this]
  | succ p ih =>
      intro hs hq
      rcases Nat.eq_or_lt_of_le hs with he | hlt
      · rw [he]
      · have hp1 := hq (p + 1) (by omega) (le_refl _)
        rw [scanUp, hp1.1, if_pos hp1.2]
        exact ih (by omega) (fun q h1 h2 => hq q h1 (by omega))

theorem scanUp_header (d : Doc) (s : Nat) (I : List Char) (h1 : 1 ≤ s)
    (hexec : execCalloutHeaderIndent (d.lineText s) = some I) :
    scanUp d s = some (s, I) := by
  cases s with
  | zero => omega
  | succ s' => rw [scanUp, hexec]

/-! ### The forward scan lists every header's range -/

theorem mem_computeCalloutRangesAux (d : Doc) :
    ∀ fuel start n I, start ≤ n → n < start + fuel →
      execCalloutHeaderIndent (d.lineText n) = some I →
      rangeFromHeaderLine d n I ∈ computeCalloutRangesAux d fuel start := by
  intro fuel
  induction fuel with
  | zero => intro start n I h1 h2 _; omega
  | succ fuel ih =>
      intro start n I h1 h2 hexec
      rcases Nat.eq_or_lt_of_le h1 with he | hlt
      · rw [← he] at hexec
        rw [computeCalloutRangesAux, hexec, he]
        exact List.mem_cons_self _ _
      · have hmem := ih (start + 1) n I (by omega) (by omega) hexec
        rw [computeCalloutRangesAux]
        cases hs : execCalloutHeaderIndent (d.lineText start) with
        | none => exact hmem
        | some ind => exact List.mem_cons_of_mem _ hmem

theorem rangeFromHeaderLine_mem_computeCalloutRanges (d : Doc) (n : Nat) (I : List Char)
    (h1 : 1 ≤ n) (h2 : n ≤ d.lineCount)
    (hexec : execCalloutHeaderIndent (d.lineText n) = some I) :
    rangeFromHeaderLine d n I ∈ computeCalloutRanges d :=
  mem_computeCalloutRangesAux d d.lineCount 1 n I h1 (by omega) hexec

/-! ### The body-collection loop on a fully valid range -/

theorem collectBodyAux_of_all (d : Doc) (I : List Char) :
    ∀ fuel i, (∀ k, k < fuel → I.isPrefixOf (d.lineText (i + k)) = true) →
      collectBodyAux d I fuel i
        = (List.range fuel).map (fun k => (d.lineText (i + k)).drop I.length) := by
  intro fuel
  induction fuel with
  | zero => intro i _; simp [collectBodyAux]
  | succ fuel ih =>
      intro i hall
      have h0 : I.isPrefixOf (d.lineText i) = true := by
        have := hall 0 (by omega)
        simpa using this
      rw [collectBodyAux, if_pos h0, List.range_succ_eq_map, List.map_cons, List.map_map]
      have htl := ih (i + 1) (fun k hk => by
        have := hall (k + 1) (by omega)
        have harith : i + (k + 1) = i + 1 + k := by omega
        rwa [harith] at this)
      rw [htl]
      refine congrArg₂ _ (by simp) ?_
      refine List.map_congr_left ?_
      intro k _
      simp only [Function.comp]
      have harith : i + (k + 1) = i + 1 + k := by omega
      rw [Nat.succ_eq_add_one, harith]

/-- A prefix put back in front of the corresponding `drop` restores the line. -/
theorem append_drop_of_isPrefixOf (I t : List Char) (h : I.isPrefixOf t = true) :
    I ++ t.drop I.length = t := by
  have hpf : I <+: t := List.isPrefixOf_iff_prefix.mp h
  obtain ⟨r, rfl⟩ := hpf
  rw [List.drop_left]

/-! ### `getCalloutMarkdownFromLines` on in-bounds arguments -/

theorem getCalloutMarkdownFromLines_of_header (d : Doc) (ls le : Nat) (I : List Char)
    (h1 : 1 ≤ ls) (h2 : ls ≤ le) (h3 : le ≤ d.lineCount)
    (hexec : execCalloutHeaderIndent (d.lineText ls) = some I) :
    getCalloutMarkdownFromLines d (ls : Int) (le : Int)
      = some (joinLines (collectBodyAux d I (le - ls) (ls + 1))) := by
  rw [getCalloutMarkdownFromLines]
  rw [if_neg (by omega)]
  rw [Int.toNat_natCast, Int.toNat_natCast, hexec]

/-! ### Splitting on newlines inverts joining newline-free pieces -/

theorem splitOnNewlineChar_of_no_newline :
    ∀ l : List Char, '\n' ∉ l → splitOnNewlineChar l = [l] := by
  intro l
  induction l with
  | nil => intro _; rfl
  | cons c rest ih =>
      intro hn
      have hc : ¬ c = '\n' := fun he => hn (by rw [he]; exact List.mem_cons_self _ _)
      have hrest : '\n' ∉ rest := fun hm => hn (List.mem_cons_of_mem _ hm)
      rw [splitOnNewlineChar, if_neg hc, ih hrest]

theorem splitOnNewlineChar_append (t : List Char) :
    ∀ l : List Char, '\n' ∉ l →
      splitOnNewlineChar (l ++ '\n' :: t) = l :: splitOnNewlineChar t := by
  intro l
  induction l with
  | nil => intro _; simp [splitOnNewlineChar]
  | cons c rest ih =>
      intro hn
      have hc : ¬ c = '\n' := fun he => hn (by rw [he]; exact List.mem_cons_self _ _)
      have hrest : '\n' ∉ rest := fun hm => hn (List.mem_cons_of_mem _ hm)
      rw [List.cons_append, splitOnNewlineChar, if_neg hc, ih hrest]

theorem splitOnNewlineChar_joinLines :
    ∀ parts : List (List Char), parts ≠ [] → (∀ l ∈ parts, '\n' ∉ l) →
      splitOnNewlineChar (joinLines parts) = parts := by
  intro parts
  induction parts with
  | nil => intro h _; exact absurd rfl h
  | cons l rest ih =>
      intro _ hnl
      cases rest with
      | nil =>
          rw [joinLines]
          exact splitOnNewlineChar_of_no_newline l (hnl l (List.mem_cons_self _ _))
      | cons l₂ rest₂ =>
          rw [joinLines, splitOnNewlineChar_append _ l (hnl l (List.mem_cons_self _ _))]
          rw [ih (by simp) (fun m hm => hnl m (List.mem_cons_of_mem _ hm))]

/-- On a valid range (header matches with indent `I`, every body line carries
the prefix `I`), extraction returns exactly the body lines with one leading
copy of `I` removed, joined by newlines. -/
theorem getCalloutMarkdownFromLines_valid (d : Doc) (ls le : Nat) (I : List Char)
    (h1 : 1 ≤ ls) (h2 : ls ≤ le) (h3 : le ≤ d.lineCount)
    (hexec : execCalloutHeaderIndent (d.lineText ls) = some I)
    (hall : ∀ m, ls < m → m ≤ le → I.isPrefixOf (d.lineText m) = true) :
    getCalloutMarkdownFromLines d (ls : Int) (le : Int)
      = some (joinLines ((lineSlice d (ls + 1) le).map (fun l => l.drop I.length))) := by
  rw [getCalloutMarkdownFromLines_of_header d ls le I h1 h2 h3 hexec]
  rw [collectBodyAux_of_all d I (le - ls) (ls + 1)
    (fun k hk => hall (ls + 1 + k) (by omega) (by omega))]
  rw [lineSlice]
  have harith : le + 1 - (ls + 1) = le - ls := by omega
  rw [harith, List.map_map]
  rfl

/-- C1: for every document and every 1-indexed line `n` whose text matches the
callout-header pattern with captured indent `I`, the range computed from `n`
(as `computeCalloutRanges` computes it, and lists it) has `lineStart = n`,
every line from `n + 1` through `lineEnd` starts with `I`, if
`lineEnd < lineCount` then line `lineEnd + 1` does not start with `I`, and
`lineEnd = n` exactly when line `n + 1` does not exist or does not start
with `I`. -/
theorem c1_range_from_header_spec (d : Doc) (n : Nat) (I : List Char)
    (h1 : 1 ≤ n) (h2 : n ≤ d.lineCount)
    (hexec : execCalloutHeaderIndent (d.lineText n) = some I) :
    (rangeFromHeaderLine d n I).lineStart = n ∧
    rangeFromHeaderLine d n I ∈ computeCalloutRanges d ∧
    n ≤ (rangeFromHeaderLine d n I).lineEnd ∧
    (rangeFromHeaderLine d n I).lineEnd ≤ d.lineCount ∧
    (∀ m, n < m → m ≤ (rangeFromHeaderLine d n I).lineEnd →
      I.isPrefixOf (d.lineText m) = true) ∧
    ((rangeFromHeaderLine d n I).lineEnd < d.lineCount →
      I.isPrefixOf (d.lineText ((rangeFromHeaderLine d n I).lineEnd + 1)) = false) ∧
    ((rangeFromHeaderLine d n I).lineEnd = n ↔
      (d.lineCount < n + 1 ∨ I.isPrefixOf (d.lineText (n + 1)) = false)) := by
  obtain ⟨g1, g2, g3, g4, g5⟩ := scanDown_spec d I n h2
  have hE : (rangeFromHeaderLine d n I).lineEnd = scanDown d I n (n + 1) := rfl
  refine ⟨rfl, rangeFromHeaderLine_mem_computeCalloutRanges d n I h1 h2 hexec,
    g1, g2, g3, g4, ?_⟩
  rw [hE]
  constructor
  · intro heq
    by_cases hc : d.lineCount < n + 1
    · exact Or.inl hc
    · right
      cases hpf : I.isPrefixOf (d.lineText (n + 1)) with
      | false => rfl
      | true => exact absurd heq (by have := g5 (by omega) hpf; omega)
  · intro hor
    rcases hor with hc | hpf
    · omega
    · by_contra hne
      have hlt : n < scanDown d I n (n + 1) := by omega
      have := g3 (n + 1) (by omega) (by omega)
      rw [this] at hpf
      exact absurd hpf (by simp)

theorem c1_range_from_header_spec_witness :
    (1 ≤ docNested.lineCount ∧
      execCalloutHeaderIndent (docNested.lineText 1) = some indentOne) ∧
    rangeFromHeaderLine docNested 1 indentOne ∈ computeCalloutRanges docNested ∧
    (rangeFromHeaderLine docNested 1 indentOne).lineEnd ≤ docNested.lineCount :=
  ⟨⟨by decide, by decide⟩,
    (c1_range_from_header_spec docNested 1 indentOne (by decide) (by decide)
      (by decide)).2.1,
    (c1_range_from_header_spec docNested 1 indentOne (by decide) (by decide)
      (by decide)).2.2.2.1⟩

/-- C4 (amended): on a valid range with header indent `I`, each output line of
`getCalloutMarkdownFromLines` equals the corresponding document line with
exactly the one leading copy of `I` removed — order and remaining content
verbatim, no trimming.  (The claim's further assertion that no output line
starts with `I` is refuted by `c4_counterexample`: a nested callout's body
line keeps its deeper quote markers, so the line `"> [!warning]"` of the
output starts with the outer indent `"> "`.) -/
theorem c4_strip_verbatim (d : Doc) (ls le : Nat) (I : List Char)
    (h1 : 1 ≤ ls) (h2 : ls ≤ le) (h3 : le ≤ d.lineCount)
    (hexec : execCalloutHeaderIndent (d.lineText ls) = some I)
    (hall : ∀ m, ls < m → m ≤ le → I.isPrefixOf (d.lineText m) = true) :
    getCalloutMarkdownFromLines d (ls : Int) (le : Int)
      = some (joinLines ((lineSlice d (ls + 1) le).map (fun l => l.drop I.length))) :=
  getCalloutMarkdownFromLines_valid d ls le I h1 h2 h3 hexec hall

theorem c4_counterexample :
    execCalloutHeaderIndent (docNested.lineText 1) = some indentOne ∧
    indentOne.isPrefixOf (docNested.lineText 2) = true ∧
    indentOne.isPrefixOf (docNested.lineText 3) = true ∧
    indentOne.isPrefixOf (docNested.lineText 4) = true ∧
    indentOne.isPrefixOf (docNested.lineText 5) = true ∧
    getCalloutMarkdownFromLines docNested 1 5
      = some (("body1\n> [!warning]\n> inner body\nbody2").data) ∧
    (splitOnNewlineChar (("body1\n> [!warning]\n> inner body\nbody2").data)).any
      (fun l => indentOne.isPrefixOf l) = true := by decide

theorem c4_strip_verbatim_witness :
    getCalloutMarkdownFromLines docNested 1 5
      = some (joinLines ((lineSlice docNested 2 5).map (fun l => l.drop indentOne.length))) :=
  c4_strip_verbatim docNested 1 5 indentOne (by decide) (by decide) (by decide) (by decide)
    (by intro m hm1 hm2; interval_cases m <;> decide)

/-- C7: if the line at `lineStart` no longer matches the callout-header
pattern, `getCalloutMarkdownFromLines` returns `none` even on an in-bounds
pair — the indent is re-derived from the header line's current text on every
call. -/
theorem c7_stale_header (d : Doc) (ls le : Nat)
    (h1 : 1 ≤ ls) (h2 : ls ≤ le) (h3 : le ≤ d.lineCount)
    (hexec : execCalloutHeaderIndent (d.lineText ls) = none) :
    getCalloutMarkdownFromLines d (ls : Int) (le : Int) = none := by
  rw [getCalloutMarkdownFromLines, if_neg (by omega), Int.toNat_natCast, hexec]

theorem c7_stale_header_witness :
    (execCalloutHeaderIndent (docPlain.lineText 1) = none ∧
      1 ≤ docPlain.lineCount ∧ 2 ≤ docPlain.lineCount) ∧
    getCalloutMarkdownFromLines docPlain 1 2 = none :=
  ⟨⟨by decide, by decide, by decide⟩,
    c7_stale_header docPlain 1 2 (by decide) (by decide) (by decide) (by decide)⟩

/-- C8: a header-only callout is not an error — extraction over the
single-line range `{ls, ls}` returns the empty string, a present result. -/
theorem c8_empty_body (d : Doc) (ls : Nat) (I : List Char)
    (h1 : 1 ≤ ls) (h2 : ls ≤ d.lineCount)
    (hexec : execCalloutHeaderIndent (d.lineText ls) = some I) :
    getCalloutMarkdownFromLines d (ls : Int) (ls : Int) = some [] := by
  rw [getCalloutMarkdownFromLines_of_header d ls ls I h1 (le_refl _) h2 hexec]
  simp [Nat.sub_self, collectBodyAux, joinLines]

theorem c8_empty_body_witness :
    computeCalloutRanges docNote = [⟨1, 1⟩] ∧
    getCalloutMarkdownFromLines docNote 1 1 = some [] :=
  ⟨by decide, c8_empty_body docNote 1 indentOne (by decide) (by decide) (by decide)⟩

/-- C9: whenever the probe scan returns a range, the range contains the probe
line, ends inside the document, and its start line matches the callout-header
pattern — even though line `p` itself is never re-checked against the found
indent. -/
theorem c9_result_contains_probe (d : Doc) (p : Nat) (r : CalloutLineRange)
    (h1 : 1 ≤ p) (h2 : p ≤ d.lineCount)
    (hfind : findCalloutRangeContainingLine d p = some r) :
    r.lineStart ≤ p ∧ p ≤ r.lineEnd ∧ r.lineEnd ≤ d.lineCount ∧
    (execCalloutHeaderIndent (d.lineText r.lineStart)).isSome = true := by
  rw [findCalloutRangeContainingLine] at hfind
  cases hup : scanUp d p with
  | none => rw [hup] at hfind; exact absurd hfind (by simp)
  | some si =>
      obtain ⟨s, I⟩ := si
      rw [hup] at hfind
      have hr : r = ⟨s, scanDown d I p (p + 1)⟩ := (Option.some.inj hfind).symm
      obtain ⟨g1, g2, g3⟩ := scanUp_some d p s I hup
      obtain ⟨k1, k2, -, -, -⟩ := scanDown_spec d I p h2
      rw [hr]
      exact ⟨g2, k1, k2, by rw [g3]; rfl⟩

theorem c9_result_contains_probe_witness :
    (1 ≤ 3 ∧ 3 ≤ docMixed.lineCount ∧
      findCalloutRangeContainingLine docMixed 3 = some ⟨2, 3⟩ ∧
      indentTwo.isPrefixOf (docMixed.lineText 3) = false) ∧
    (2 ≤ 3 ∧ 3 ≤ 3 ∧ 3 ≤ docMixed.lineCount ∧
      (execCalloutHeaderIndent (docMixed.lineText 2)).isSome = true) :=
  ⟨⟨by decide, by decide, by decide, by decide⟩,
    c9_result_contains_probe docMixed 3 ⟨2, 3⟩ (by decide) (by decide) (by decide)⟩

/-- C10: the leading guard makes the extraction total over all integer
inputs — any pair with `lineStart < 1`, `lineEnd > lineCount` or
`lineStart > lineEnd` yields `none` before any line is read. -/
theorem c10_guard_total (d : Doc) (ls le : Int)
    (h : ls < 1 ∨ le > (d.lineCount : Int) ∨ ls > le) :
    getCalloutMarkdownFromLines d ls le = none := by
  rw [getCalloutMarkdownFromLines, if_pos h]

theorem c10_guard_total_witness :
    ((-3 : Int) < 1 ∨ (2 : Int) > (docNote.lineCount : Int) ∨ (-3 : Int) > 2) ∧
    getCalloutMarkdownFromLines docNote (-3) 2 = none :=
  ⟨Or.inl (by decide), c10_guard_total docNote (-3) 2 (Or.inl (by decide))⟩

/-- C3 (amended): on a valid range with at least one body line
(`lineStart < lineEnd`) over a document whose body lines contain no newline
character (true of any real editor line), splitting the extracted body on
newlines and re-prefixing each piece with the header indent `I` reproduces
lines `lineStart + 1 .. lineEnd` verbatim, in order.  (For a header-only
range the extracted body is the empty string, which splits into one empty
piece rather than zero pieces — `c3_counterexample` — so the claim fails as
stated at `lineStart = lineEnd`.) -/
theorem c3_round_trip (d : Doc) (ls le : Nat) (I : List Char)
    (h1 : 1 ≤ ls) (h2 : ls < le) (h3 : le ≤ d.lineCount)
    (hexec : execCalloutHeaderIndent (d.lineText ls) = some I)
    (hall : ∀ m, ls < m → m ≤ le → I.isPrefixOf (d.lineText m) = true)
    (hnl : ∀ m, ls < m → m ≤ le → '\n' ∉ d.lineText m) :
    (getCalloutMarkdownFromLines d (ls : Int) (le : Int)).map
        (fun body => (splitOnNewlineChar body).map (fun l => I ++ l))
      = some (lineSlice d (ls + 1) le) := by
  rw [getCalloutMarkdownFromLines_valid d ls le I h1 (le_of_lt h2) h3 hexec hall]
  rw [Option.map_some']
  have hslice : ∀ l ∈ lineSlice d (ls + 1) le, ∃ m, ls < m ∧ m ≤ le ∧ l = d.lineText m := by
    intro l hl
    rw [lineSlice] at hl
    obtain ⟨k, hk, rfl⟩ := List.mem_map.mp hl
    rw [List.mem_range] at hk
    exact ⟨ls + 1 + k, by omega, by omega, rfl⟩
  have hlen : ((lineSlice d (ls + 1) le).map (fun l => l.drop I.length)).length = le - ls := by
    rw [List.length_map, lineSlice, List.length_map, List.length_range]
    omega
  have hne : (lineSlice d (ls + 1) le).map (fun l => l.drop I.length) ≠ [] := by
    intro hnil
    rw [hnil] at hlen
    simp only [List.length_nil] at hlen
    omega
  have hnl' : ∀ l ∈ (lineSlice d (ls + 1) le).map (fun l => l.drop I.length), '\n' ∉ l := by
    intro l hl
    obtain ⟨t, ht, rfl⟩ := List.mem_map.mp hl
    obtain ⟨m, hm1, hm2, rfl⟩ := hslice t ht
    intro hmem
    exact hnl m hm1 hm2 (List.mem_of_mem_drop hmem)
  rw [splitOnNewlineChar_joinLines _ hne hnl', List.map_map]
  have hid : ∀ l ∈ lineSlice d (ls + 1) le,
      ((fun l => I ++ l) ∘ fun l => l.drop I.length) l = l := by
    intro l hl
    obtain ⟨m, hm1, hm2, rfl⟩ := hslice l hl
    exact append_drop_of_isPrefixOf I _ (hall m hm1 hm2)
  rw [List.map_congr_left hid]
  simp

theorem c3_counterexample :
    getCalloutMarkdownFromLines docNote 1 1 = some [] ∧
    execCalloutHeaderIndent (docNote.lineText 1) = some indentOne ∧
    (splitOnNewlineChar []).map (fun l => indentOne ++ l) = [indentOne] ∧
    lineSlice docNote 2 1 = [] ∧
    ([indentOne] : List (List Char)) ≠ [] := by decide

theorem c3_round_trip_witness :
    (getCalloutMarkdownFromLines docNested 1 5).map
        (fun body => (splitOnNewlineChar body).map (fun l => indentOne ++ l))
      = some (lineSlice docNested 2 5) :=
  c3_round_trip docNested 1 5 indentOne (by decide) (by decide) (by decide) (by decide)
    (by intro m hm1 hm2; interval_cases m <;> decide)
    (by intro m hm1 hm2; interval_cases m <;> decide)

/-- C2 (amended): for a probe line `p` strictly inside the body of the callout
whose header `s` is the nearest header at or below `p` (no line strictly
between `s` and `p`, nor `p` itself, matches the header pattern), the bounded
bidirectional scan returns exactly the range the full-document forward scan
computes for `s`.  (Without the nearest-header condition the two disagree on
nested callouts — `c2_counterexample`.) -/
theorem c2_probe_range (d : Doc) (s p : Nat) (I : List Char)
    (h1 : 1 ≤ s) (h2 : s ≤ d.lineCount)
    (hexec : execCalloutHeaderIndent (d.lineText s) = some I)
    (h4 : s < p) (h5 : p ≤ (rangeFromHeaderLine d s I).lineEnd)
    (hnoh : ∀ q, s < q → q ≤ p → execCalloutHeaderIndent (d.lineText q) = none) :
    findCalloutRangeContainingLine d p = some (rangeFromHeaderLine d s I) := by
  obtain ⟨g1, g2, g3, g4, g5⟩ := scanDown_spec d I s h2
  have hE : (rangeFromHeaderLine d s I).lineEnd = scanDown d I s (s + 1) := rfl
  rw [hE] at h5
  have hsh := execCalloutHeaderIndent_shape _ _ hexec
  have hbq : ∀ q, s < q → q ≤ p → execCalloutHeaderIndent (d.lineText q) = none ∧
      trimmedStartsWithGt (d.lineText q) = true := by
    intro q hq1 hq2
    exact ⟨hnoh q hq1 hq2,
      trimmedStartsWithGt_of_indent I _ hsh (g3 q hq1 (by omega))⟩
  have hup : scanUp d p = some (s, I) := by
    rw [scanUp_skip d s p (by omega) hbq]
    exact scanUp_header d s I h1 hexec
  rw [findCalloutRangeContainingLine, hup]
  have hdown : scanDown d I p (p + 1) = scanDown d I s (s + 1) :=
    scanDown_stable d I s h2 (scanDown d I s (s + 1) - p) p h5 (by omega) (by omega)
  show some (⟨s, scanDown d I p (p + 1)⟩ : CalloutLineRange) = some (rangeFromHeaderLine d s I)
  rw [hdown]
  rfl

theorem c2_counterexample :
    execCalloutHeaderIndent (docNested.lineText 1) = some indentOne ∧
    rangeFromHeaderLine docNested 1 indentOne = ⟨1, 5⟩ ∧
    (1 : Nat) < 4 ∧ (4 : Nat) ≤ 5 ∧
    findCalloutRangeContainingLine docNested 4 = some ⟨3, 4⟩ ∧
    (⟨3, 4⟩ : CalloutLineRange) ≠ ⟨1, 5⟩ := by decide

theorem c2_probe_range_witness :
    findCalloutRangeContainingLine docNested 4
      = some (rangeFromHeaderLine docNested 3 indentTwo) :=
  c2_probe_range docNested 3 4 indentTwo (by decide) (by decide) (by decide) (by decide)
    (by decide) (by intro q hq1 hq2; interval_cases q <;> decide)

/-- C5: the nested-callout instance of the specification.  The forward scan
finds exactly the outer range `{1, 5}` (indent `"> "`) and the inner range
`{3, 4}` (indent `"> > "`); extraction over the outer range strips one level
of `"> "` and keeps the inner callout's markers, and extraction over the
inner range yields its single body line. -/
theorem c5_nested_instance :
    computeCalloutRanges docNested = [⟨1, 5⟩, ⟨3, 4⟩] ∧
    execCalloutHeaderIndent (docNested.lineText 1) = some indentOne ∧
    execCalloutHeaderIndent (docNested.lineText 3) = some indentTwo ∧
    rangeFromHeaderLine docNested 1 indentOne = ⟨1, 5⟩ ∧
    rangeFromHeaderLine docNested 3 indentTwo = ⟨3, 4⟩ ∧
    getCalloutMarkdownFromLines docNested 1 5
      = some (("body1\n> [!warning]\n> inner body\nbody2").data) ∧
    getCalloutMarkdownFromLines docNested 3 4 = some (("inner body").data) := by
  decide

theorem findCalloutRange_none_iff_scanUp_none (d : Doc) (p : Nat) :
    findCalloutRangeContainingLine d p = none ↔ scanUp d p = none := by
  rw [findCalloutRangeContainingLine]
  cases hup : scanUp d p with
  | none => simp
  | some si => obtain ⟨s, I⟩ := si; simp

theorem scanUp_eq_none_iff (d : Doc) :
    ∀ p, scanUp d p = none ↔ ((∃ j, walkBlockedAt d p j) ∨ walkExhausted d p) := by
  intro p
  induction p with
  | zero =>
      constructor
      · intro _
        exact Or.inr (fun q hq1 hq2 => by omega)
      · intro _
        rfl
  | succ p ih =>
      cases hexec : execCalloutHeaderIndent (d.lineText (p + 1)) with
      | some ind =>
          rw [scanUp, hexec]
          constructor
          · intro h; exact absurd h (by simp)
          · rintro (⟨j, hj⟩ | hex)
            · obtain ⟨hj1, hj2, hj3, hj4, hj5⟩ := hj
              rcases Nat.eq_or_lt_of_le hj2 with he | hlt
              · rw [he] at hj3; rw [hj3] at hexec; exact absurd hexec (by simp)
              · have := (hj5 (p + 1) (by omega) (le_refl _)).1
                rw [this] at hexec; exact absurd hexec (by simp)
            · have := (hex (p + 1) (by omega) (le_refl _)).1
              rw [this] at hexec; exact absurd hexec (by simp)
      | none =>
          cases hbq : trimmedStartsWithGt (d.lineText (p + 1)) with
          | false =>
              rw [scanUp, hexec, if_neg (by simp [hbq])]
              constructor
              · intro _
                exact Or.inl ⟨p + 1, by omega, le_refl _, hexec, hbq,
                  fun q hq1 hq2 => by omega⟩
              · intro _; rfl
          | true =>
              rw [scanUp, hexec, if_pos hbq, ih]
              constructor
              · rintro (⟨j, hj⟩ | hex)
                · obtain ⟨hj1, hj2, hj3, hj4, hj5⟩ := hj
                  refine Or.inl ⟨j, hj1, by omega, hj3, hj4, fun q hq1 hq2 => ?_⟩
                  rcases Nat.lt_or_ge q (p + 1) with hc | hc
                  · exact hj5 q hq1 (by omega)
                  · have hq : q = p + 1 := by omega
                    rw [hq]; exact ⟨hexec, hbq⟩
                · refine Or.inr (fun q hq1 hq2 => ?_)
                  rcases Nat.lt_or_ge q (p + 1) with hc | hc
                  · exact hex q hq1 (by omega)
                  · have hq : q = p + 1 := by omega
                    rw [hq]; exact ⟨hexec, hbq⟩
              · rintro (⟨j, hj⟩ | hex)
                · obtain ⟨hj1, hj2, hj3, hj4, hj5⟩ := hj
                  rcases Nat.eq_or_lt_of_le hj2 with he | hlt
                  · rw [he] at hj4; rw [hj4] at hbq; exact absurd hbq (by simp)
                  · exact Or.inl ⟨j, hj1, by omega, hj3, hj4,
                      fun q hq1 hq2 => hj5 q hq1 (by omega)⟩
                · exact Or.inr (fun q hq1 hq2 => hex q hq1 (by omega))

/-- C6: the probe scan returns `none` exactly when the upward walk from `p`,
before reaching any line that matches the callout-header pattern, either
meets a line whose whitespace-stripped text does not begin with `>` or runs
past line 1; in particular it returns `none` (a value, the model being a
total function) on the two-line plain-text document at probe line 1. -/
theorem c6_not_found_iff :
    (∀ (d : Doc) (p : Nat),
      findCalloutRangeContainingLine d p = none ↔
        ((∃ j, walkBlockedAt d p j) ∨ walkExhausted d p)) ∧
    findCalloutRangeContainingLine docPlain 1 = none := by
  constructor
  · intro d p
    rw [findCalloutRange_none_iff_scanUp_none]
    exact scanUp_eq_none_iff d p
  · decide
